import Mathlib

/-!
# Verification of the NFT recommendation dataset-construction pipeline

Shallow embedding of `Our model/Create_dataset.ipynb`: the threshold filter,
the price-label generator, the index mapper, the split engine, the adjacency
builder and the feature aligner, together with theorems checking the
natural-language specification against this embedding.

Strings from the source (buyer addresses, raw `Price` strings) are modelled
as `List Char`, which is exactly the character data of a Python `str`.
-/

open List

/-- Characters of a Python string. -/
abbrev Str := List Char

/-- One raw transaction row, as read from `dataset/transactions/<collection>.csv`:
a buyer address (`Buyer`), an item token ID (`Token ID`) and the raw price
string (`Price`).  Row order in the list is the row order of the CSV. -/
structure RawRow where
  buyer : Str
  tokenId : Nat
  price : Str
deriving DecidableEq

/-- A row after price parsing: buyer, token ID and the numeric value obtained
from the `Price` string by the notebook's parsing lambda. -/
structure PRow where
  buyer : Str
  tokenId : Nat
  priceVal : Nat
deriving DecidableEq

instance : Inhabited PRow := ⟨⟨[], 0, 0⟩⟩

/-- One row of the mapped interaction array `inter`: mapped user index,
mapped item index and the binary price label. -/
structure IRow where
  user : Nat
  item : Nat
  label : Nat
deriving DecidableEq

instance : Inhabited IRow := ⟨⟨0, 0, 0⟩⟩

/-! ## Threshold filter (notebook cells 3 and 5)

Cell 3 keeps rows whose `Token ID` lies in the intersection of the index sets
of the four item-feature tables and whose `Buyer` occurs in the user-feature
table.  Cell 5 then counts, on the already feature-filtered frame, how many
rows each buyer has and keeps the rows of buyers with at least `CUT` rows. -/

/-- `df_collection[df_collection['Token ID'].isin(indices)]` followed by
`df_collection[df_collection['Buyer'].isin(df_feature['Buyer'])]`, where
`indices` is the intersection of the four item-feature index sets. -/
def featureFilter (img txt prc txn : List Nat) (uf : List Str)
    (rows : List RawRow) : List RawRow :=
  rows.filter (fun r =>
    decide (r.tokenId ∈ img) && decide (r.tokenId ∈ txt) &&
    decide (r.tokenId ∈ prc) && decide (r.tokenId ∈ txn) &&
    decide (r.buyer ∈ uf))

/-- Number of rows of a given buyer, the notebook's
`df_collection['Buyer'].value_counts()` looked up at one buyer. -/
def countBuyer (rows : List RawRow) (u : Str) : Nat :=
  (rows.filter (fun r => decide (r.buyer = u))).length

/-- `user_count = value_counts()[>= CUT]` and
`df_collection[df_collection['Buyer'].isin(user_count)]`: keep the rows of
buyers whose row count in `rows` itself is at least `cut`. -/
def userCutFilter (cut : Nat) (rows : List RawRow) : List RawRow :=
  rows.filter (fun r => decide (cut ≤ countBuyer rows r.buyer))

/-- The whole threshold filter: feature-presence filtering first, then the
user-count threshold computed on the feature-filtered rows. -/
def thresholdFilter (img txt prc txn : List Nat) (uf : List Str) (cut : Nat)
    (rows : List RawRow) : List RawRow :=
  userCutFilter cut (featureFilter img txt prc txn uf rows)

/-! ## Label generator (notebook cell 6) -/

/-- `df_collection['Price'].str.contains("\$")`. -/
def hasDollar (p : Str) : Bool := p.contains '$'

/-- `df_collection = df_collection[df_collection['Price'].str.contains("\$")]`:
rows whose price string lacks the currency marker are removed. -/
def dollarFilter (rows : List RawRow) : List RawRow :=
  rows.filter (fun r => hasDollar r.price)

/-- Python `s.split(' ')`: split on every single space character. -/
def splitSpace : Str → List Str
  | [] => [[]]
  | c :: cs =>
    if c = ' ' then [] :: splitSpace cs
    else
      match splitSpace cs with
      | [] => [[c]]
      | t :: ts => (c :: t) :: ts

/-- Numeric value of a digit string, the effect of `float(...)` on the
all-digit string produced by the parsing lambda. -/
def digitsVal (cs : Str) : Nat :=
  cs.foldl (fun a c => a * 10 + (c.toNat - 48)) 0

/-- The notebook's parsing lambda
`x.split(' ')[2][2:-1].replace(',', '').replace('.', '')` followed by the
numeric conversion: take the third space-separated token, drop its first two
and last characters, delete every comma and period, and read the digits. -/
def parsePrice (s : Str) : Nat :=
  digitsVal ((((splitSpace s).getD 2 []).drop 2).dropLast.filter
    (fun c => !(c = ',' : Bool) && !(c = '.' : Bool)))

/-- Apply the parsing lambda to every surviving row. -/
def parsedRows (rows : List RawRow) : List PRow :=
  rows.map (fun r => ⟨r.buyer, r.tokenId, parsePrice r.price⟩)

/-- `groupby('Token ID')['Price'].diff(-1)`, `fillna(0)`, negation and
thresholding at zero, expressed row by row: the label of a row is determined
by the first later row carrying the same token ID; it is `1` when that
successor's parsed price is strictly greater, and `0` otherwise (including
the boundary row with no successor, whose `NaN` difference is filled with
`0`). -/
def mkLabels : List PRow → List Nat
  | [] => []
  | r :: rest =>
    (match rest.find? (fun s => decide (s.tokenId = r.tokenId)) with
     | some s => if r.priceVal < s.priceVal then 1 else 0
     | none => 0) :: mkLabels rest

/-- The full label stage of cell 6: currency filter, price parsing, labels. -/
def labelStage (rows : List RawRow) : List Nat :=
  mkLabels (parsedRows (dollarFilter rows))

/-! ## Index mapper (notebook cell 8)

`np.unique` returns the sorted distinct values; the notebook then enumerates
them, items into `[0, num_item)` and users into
`[num_item, num_item + num_user)`. -/

/-- `np.unique` over integer token IDs: sorted distinct values ascending. -/
def sortedDedupN (l : List Nat) : List Nat := insertionSort (· ≤ ·) l.dedup

/-- Strict lexicographic comparison of two address strings, the order
`np.unique` uses on string arrays. -/
def strLtB : Str → Str → Bool
  | [], [] => false
  | [], _ :: _ => true
  | _ :: _, [] => false
  | a :: as, b :: bs => if a = b then strLtB as bs else Nat.blt a.toNat b.toNat

/-- Non-strict lexicographic order on address strings. -/
def strLe (a b : Str) : Prop := strLtB b a = false

instance : DecidableRel strLe := fun a b => instDecidableEqBool (strLtB b a) false

/-- `np.unique` over address strings: sorted distinct values ascending. -/
def sortedDedupS (l : List Str) : List Str := insertionSort strLe l.dedup

/-- `mapping_i`: position of a raw token ID in the sorted-unique item list,
so the sorted-unique items are enumerated `0, 1, 2, ...`. -/
def mapping_i (itemU : List Nat) (x : Nat) : Nat :=
  @List.indexOf Nat instBEqOfDecidableEq x itemU

/-- `mapping_u`: position of a raw address in the sorted-unique user list,
shifted by `len(set(item))`. -/
def mapping_u (numItem : Nat) (userU : List Str) (x : Str) : Nat :=
  numItem + @List.indexOf Str instBEqOfDecidableEq x userU

/-- Cell 8's `inter` array: for every surviving row, the triple
`(mapping_u[buyer], mapping_i[token], label)`, in row order. -/
def interOf (rows : List RawRow) : List IRow :=
  let pr := parsedRows (dollarFilter rows)
  let itemU := sortedDedupN (pr.map (fun r => r.tokenId))
  let userU := sortedDedupS (pr.map (fun r => r.buyer))
  (pr.zip (mkLabels pr)).map (fun z =>
    ⟨mapping_u itemU.length userU z.1.buyer, mapping_i itemU z.1.tokenId, z.2⟩)

/-! ## Split engine (notebook cell 12)

For each user `u` of `inter` (in `np.unique` order) the notebook draws
`int(n_u * 0.4)` distinct row positions of `u` via `np.random.choice` from the
ambient global NumPy state, pools them into `random_idx_list`, removes them
from `inter` to form `train`, and splits the pooled list into `valid` and
`test` with `train_test_split(..., test_size=0.5, random_state=42)`.
The random draw is modelled by an explicit `pick` function constrained by
`PickValid`; the seeded 50/50 subsplit by any partition `SplitValid`. -/

/-- Positions (from offset `k`) of the rows of user `u`:
`np.where(inter[:,0]==u)[0]`. -/
def userPosAux (rows : List IRow) (u : Nat) (k : Nat) : List Nat :=
  match rows with
  | [] => []
  | r :: rest =>
    if r.user = u then k :: userPosAux rest u (k + 1) else userPosAux rest u (k + 1)

/-- Row positions of user `u` within `inter`, ascending. -/
def userPos (inter : List IRow) (u : Nat) : List Nat := userPosAux inter u 0

/-- `np.unique(inter[:,0])`. -/
def uniqueUsers (inter : List IRow) : List Nat :=
  sortedDedupN (inter.map (fun r => r.user))

/-- `num_sample = int(len(np.where(inter[:,0]==u)[0]) * 0.4)`: the Python
float literal `0.4` times the row count, truncated to an integer. -/
def numSample (n : Nat) : Nat := ⌊(n : ℚ) * (4 / 10)⌋₊

/-- What `np.random.choice(np.where(inter[:,0]==u)[0], num_sample,
replace=False)` guarantees about the drawn positions of each user: they are
distinct, they are positions of that user's rows, and there are exactly
`num_sample` of them. -/
def PickValid (inter : List IRow) (pick : Nat → List Nat) : Prop :=
  ∀ u ∈ uniqueUsers inter,
    (pick u).Nodup ∧ (∀ k ∈ pick u, k ∈ userPos inter u) ∧
    (pick u).length = numSample (userPos inter u).length

/-- `random_idx_list`: the pooled held-out positions, user by user in
`np.unique` order. -/
def heldIdx (inter : List IRow) (pick : Nat → List Nat) : List Nat :=
  (uniqueUsers inter).flatMap pick

/-- `train = np.delete(inter, random_idx_list, axis=0)` as positions: the
row positions not held out, in their original order. -/
def trainIdx (inter : List IRow) (pick : Nat → List Nat) : List Nat :=
  (List.range inter.length).filter (fun k => decide (k ∉ heldIdx inter pick))

/-- `inter[idx_list]`: the rows of `inter` at the given positions. -/
def rowsAt (inter : List IRow) (idxs : List Nat) : List IRow :=
  idxs.map (fun k => inter.getD k default)

/-- What `train_test_split(random_idx_list, test_size=0.5, random_state=42)`
guarantees: the two output lists together are a rearrangement of the input. -/
def SplitValid (held vI tI : List Nat) : Prop := (vI ++ tI).Perm held

/-- Number of rows of `inter` carrying user `u`. -/
def countUser (rows : List IRow) (u : Nat) : Nat :=
  rows.countP (fun r => decide (r.user = u))

/-! ## Adjacency builder (notebook cell 22)

The notebook iterates over the rows of `inter` and appends each row's item to
`adj_dict[user]`, creating the entry on first sight. -/

/-- One step of the dict-of-lists append pattern. -/
def adjInsert (d : List (Nat × List Nat)) (u i : Nat) : List (Nat × List Nat) :=
  if d.any (fun kv => decide (kv.1 = u)) then
    d.map (fun kv => if kv.1 = u then (kv.1, kv.2 ++ [i]) else kv)
  else d ++ [(u, [i])]

/-- Cell 22's `adj_dict`, built by folding over the rows of `inter`. -/
def adj_dict (inter : List IRow) : List (Nat × List Nat) :=
  inter.foldl (fun d r => adjInsert d r.user r.item) []

/-- `adj_dict[u]`, with `[]` for an absent key. -/
def adjLookup (d : List (Nat × List Nat)) (u : Nat) : List Nat :=
  match d.find? (fun kv => decide (kv.1 = u)) with
  | some kv => kv.2
  | none => []

/-! ## Feature aligner (notebook cells 24 and 25)

Each item-feature table is a keyed frame; only the keys and an opaque row
payload matter here.  Cell 24 restricts every table to the keys appearing in
`item_unique` and maps the surviving keys through `mapping_i`; cell 25 asserts
that the sorted key arrays of the four tables coincide. -/

/-- The table's index column. -/
def keysOf {β : Type} (t : List (Nat × β)) : List Nat := t.map Prod.fst

/-- `t.loc[t.index.isin(item_unique)]`. -/
def restrictT {β : Type} (itemU : List Nat) (t : List (Nat × β)) : List (Nat × β) :=
  t.filter (fun kv => decide (kv.1 ∈ itemU))

/-- Restriction followed by `t.index = t.index.map(mapping_i)`. -/
def reindexT {β : Type} (itemU : List Nat) (t : List (Nat × β)) : List (Nat × β) :=
  (restrictT itemU t).map (fun kv => (mapping_i itemU kv.1, kv.2))

/-- `np.sort(t.index.values)`. -/
def sortedKeys {β : Type} (t : List (Nat × β)) : List Nat :=
  insertionSort (· ≤ ·) (keysOf t)

/-- Cells 24–25: restrict and reindex the four item-feature tables, then run
the three `assert np.array_equal(np.sort(...), np.sort(...))` checks; `none`
models the `AssertionError` halt. -/
def alignItems {β : Type} (itemU : List Nat) (img txt prc txn : List (Nat × β)) :
    Option (List (Nat × β) × List (Nat × β) × List (Nat × β) × List (Nat × β)) :=
  let i := reindexT itemU img
  let t := reindexT itemU txt
  let p := reindexT itemU prc
  let x := reindexT itemU txn
  if sortedKeys i = sortedKeys t ∧ sortedKeys i = sortedKeys p ∧
      sortedKeys i = sortedKeys x then
    some (i, t, p, x)
  else none

/-! ## Helper lemmas about the label generator -/

/-- `mkLabels` produces one label per row. -/
theorem mkLabels_length (l : List PRow) : (mkLabels l).length = l.length := by
  induction l with
  | nil => rfl
  | cons r rest ih => simp [mkLabels, ih]

/-- Positional reading of `mkLabels`: the label at position `k` is decided by
the first later row with the same token ID. -/
theorem mkLabels_getD (l : List PRow) (k : Nat) (hk : k < l.length) :
    (mkLabels l).getD k 0 =
      (match (l.drop (k + 1)).find?
          (fun t => decide (t.tokenId = (l.getD k default).tokenId)) with
       | some s => if (l.getD k default).priceVal < s.priceVal then 1 else 0
       | none => 0) := by
  induction l generalizing k with
  | nil => simp at hk
  | cons r rest ih =>
    cases k with
    | zero => rfl
    | succ k =>
      have hk' : k < rest.length := by simpa using hk
      simpa [mkLabels] using ih k hk'

/-- **C1, amended claim.** For every labeled row with a successor row for the
same item (first later row of the item group), the label is `1` exactly when
the successor's parsed price is strictly GREATER than the current row's price
(a forward price rise, as the repository documentation states); every row with
no successor gets label `0`.  In the two-row scenario with prices $10 then $8
for the same item under `USER_CUT = 1`, the price fell, so row 1 gets label
`0` — not `1` — and row 2 gets label `0`. -/
theorem C1_label_semantics (l : List PRow) (k : Nat) (hk : k < l.length) :
    ((mkLabels l).getD k 0 = 1 ↔
      ∃ s, (l.drop (k + 1)).find?
          (fun t => decide (t.tokenId = (l.getD k default).tokenId)) = some s ∧
        (l.getD k default).priceVal < s.priceVal) ∧
    ((l.drop (k + 1)).find?
        (fun t => decide (t.tokenId = (l.getD k default).tokenId)) = none →
      (mkLabels l).getD k 0 = 0) ∧
    labelStage (thresholdFilter [1] [1] [1] [1] [['A']] 1
      [⟨['A'], 1, "1 ETH ($10)".toList⟩, ⟨['A'], 1, "1 ETH ($8)".toList⟩]) = [0, 0] := by
  refine ⟨?_, ?_, by decide⟩
  · rw [mkLabels_getD l k hk]
    cases hf : (l.drop (k + 1)).find?
        (fun t => decide (t.tokenId = (l.getD k default).tokenId)) with
    | none => simp
    | some s =>
      show (if (l.getD k default).priceVal < s.priceVal then 1 else 0) = 1 ↔ _
      by_cases hlt : (l.getD k default).priceVal < s.priceVal
      · rw [if_pos hlt]
        exact ⟨fun _ => ⟨s, rfl, hlt⟩, fun _ => rfl⟩
      · rw [if_neg hlt]
        constructor
        · intro h0
          simp at h0
        · rintro ⟨s', hs', hlt'⟩
          cases Option.some.inj hs'
          exact absurd hlt' hlt
  · intro h
    rw [mkLabels_getD l k hk, h]

/-- Witness for `C1_label_semantics` at the two-row $10/$8 scenario: the
second row has no successor and receives label `0`. -/
theorem C1_label_semantics_witness :
    (mkLabels [⟨['A'], 1, 10⟩, ⟨['A'], 1, 8⟩]).getD 1 0 = 0 :=
  (C1_label_semantics [⟨['A'], 1, 10⟩, ⟨['A'], 1, 8⟩] 1 (by decide)).2.1 (by decide)

/-- **C1, counterexample.** On the spec's own scenario (same item, price $10
then $8, `USER_CUT = 1`, features present), the claim predicts labels
`[1, 0]`; the code produces `[0, 0]`: the first row's `Price_diff` is
`-(10 - 8) = -2 ≤ 0`, hence label `0`. -/
theorem C1_counterexample :
    labelStage (thresholdFilter [1] [1] [1] [1] [['A']] 1
      [⟨['A'], 1, "1 ETH ($10)".toList⟩, ⟨['A'], 1, "1 ETH ($8)".toList⟩]) ≠ [1, 0] ∧
    labelStage (thresholdFilter [1] [1] [1] [1] [['A']] 1
      [⟨['A'], 1, "1 ETH ($10)".toList⟩, ⟨['A'], 1, "1 ETH ($8)".toList⟩]) = [0, 0] := by
  decide

/-- **C4, amended claim.** An interaction whose price field lacks the currency
marker is silently dropped by the currency filter, and the label stage
continues on the surviving rows and still produces artifacts; no error is
raised and nothing is coerced.  Every surviving row does contain the
marker. -/
theorem C4_dollar_rows_dropped (rows : List RawRow) :
    labelStage rows = labelStage (dollarFilter rows) ∧
    (∀ r ∈ dollarFilter rows, hasDollar r.price = true) ∧
    (∀ r ∈ rows, hasDollar r.price = false → r ∉ dollarFilter rows) := by
  refine ⟨?_, ?_, ?_⟩
  · simp [labelStage, dollarFilter, List.filter_filter]
  · intro r hr
    exact (List.mem_filter.mp hr).2
  · intro r _ hbad hmem
    have h2 := (List.mem_filter.mp hmem).2
    rw [hbad] at h2
    cases h2

/-- Witness for `C4_dollar_rows_dropped`: the `05 WETH` row (no `$`) is
dropped from the concrete two-row input. -/
theorem C4_dollar_rows_dropped_witness :
    (⟨['A'], 1, "05 WETH".toList⟩ : RawRow) ∉
      dollarFilter [⟨['A'], 1, "1 ETH ($10)".toList⟩, ⟨['A'], 1, "05 WETH".toList⟩] :=
  (C4_dollar_rows_dropped
      [⟨['A'], 1, "1 ETH ($10)".toList⟩, ⟨['A'], 1, "05 WETH".toList⟩]).2.2
    ⟨['A'], 1, "05 WETH".toList⟩ (by decide) (by decide)

/-- **C4, counterexample.** On an input containing a row whose `Price` lacks
`$` (here `05 WETH`), the run does not abort: the row is silently filtered
out and a label artifact is still produced from the remaining row. -/
theorem C4_counterexample :
    dollarFilter [⟨['A'], 1, "1 ETH ($10)".toList⟩, ⟨['A'], 1, "05 WETH".toList⟩] =
      [⟨['A'], 1, "1 ETH ($10)".toList⟩] ∧
    labelStage [⟨['A'], 1, "1 ETH ($10)".toList⟩, ⟨['A'], 1, "05 WETH".toList⟩] = [0] := by
  decide

/-- **C5, counterexample.** The claim's illustrating pair fails: for raw
prices `$30.00` then `$2.50` the parser yields `3000` then `250`, which
strictly DECREASE — they do not strictly increase as the claim asserts. -/
theorem C5_counterexample :
    parsePrice "1 ETH ($30.00)".toList = 3000 ∧
    parsePrice "1 ETH ($2.50)".toList = 250 ∧
    ¬ parsePrice "1 ETH ($30.00)".toList < parsePrice "1 ETH ($2.50)".toList := by
  decide

/-- **C5, amended claim.** The price value is obtained by taking the third
space-separated token of the raw `Price` string, stripping its first two and
last characters, and deleting every `,` and `.` before numeric conversion;
consequently, for some pair of consecutive transactions of the same item
whose true decimal price strictly decreases — e.g. `$10` followed by `$9.99`,
NOT the claim's `$30.00`/`$2.50` — the parsed values strictly increase
(`10 < 999`), so the computed label (`1`, a rise) disagrees with the true
price movement (a fall, since 9.99 < 10). -/
theorem C5_price_parsing :
    (∀ s : Str, parsePrice s =
      digitsVal ((((splitSpace s).getD 2 []).drop 2).dropLast.filter
        (fun c => !(c = ',' : Bool) && !(c = '.' : Bool)))) ∧
    parsePrice "1 ETH ($10)".toList = 10 ∧
    parsePrice "1 ETH ($9.99)".toList = 999 ∧
    ((999 : ℚ) / 100 < 10) ∧
    parsePrice "1 ETH ($10)".toList < parsePrice "1 ETH ($9.99)".toList ∧
    mkLabels (parsedRows
      [⟨['A'], 1, "1 ETH ($10)".toList⟩, ⟨['A'], 1, "1 ETH ($9.99)".toList⟩]) = [1, 0] := by
  refine ⟨fun s => rfl, by decide, by decide, by norm_num, by decide, by decide⟩

/-! ## Helper lemmas about the split engine and the adjacency builder -/

/-- The truncation `int(n * 0.4)` computed by the split engine is the integer
division `2 * n / 5`. -/
theorem numSample_eq (n : Nat) : numSample n = 2 * n / 5 := by
  unfold numSample
  have h : (n : ℚ) * (4 / 10) = ((2 * n : ℕ) : ℚ) / ((5 : ℕ) : ℚ) := by
    push_cast
    ring
  rw [h, Nat.floor_div_nat, Nat.floor_natCast]

/-- Effect of one dict-of-lists insertion on a later lookup. -/
theorem adjLookup_adjInsert (d : List (Nat × List Nat)) (u i u' : Nat) :
    adjLookup (adjInsert d u i) u' =
      if u' = u then adjLookup d u' ++ [i] else adjLookup d u' := by
  have hgfst : (fun kv : Nat × List Nat =>
      decide ((if kv.1 = u then (kv.1, kv.2 ++ [i]) else kv).1 = u')) =
      (fun kv : Nat × List Nat => decide (kv.1 = u')) := by
    funext kv
    by_cases h : kv.1 = u <;> simp [h]
  unfold adjInsert adjLookup
  by_cases hany : d.any (fun kv => decide (kv.1 = u)) = true
  · rw [if_pos hany, List.find?_map]
    simp only [Function.comp_def] at *
    rw [hgfst]
    cases hfind : d.find? (fun kv => decide (kv.1 = u')) with
    | none =>
      simp only [Option.map_none']
      by_cases hu : u' = u
      · exfalso
        subst hu
        simp only [List.any_eq_true, decide_eq_true_iff] at hany
        obtain ⟨kv, hkv, hkey⟩ := hany
        have hno := List.find?_eq_none.mp hfind kv hkv
        simp [hkey] at hno
      · rw [if_neg hu]
    | some kv =>
      have hkey : kv.1 = u' := by
        have := List.find?_some hfind
        simpa using this
      simp only [Option.map_some']
      by_cases hu : u' = u
      · rw [if_pos hu, if_pos (hkey.trans hu)]
      · rw [if_neg hu, if_neg (fun h : kv.1 = u => hu (hkey.symm.trans h))]
  · rw [if_neg hany, List.find?_append]
    cases hfind : d.find? (fun kv => decide (kv.1 = u')) with
    | some kv =>
      have hkey : kv.1 = u' := by
        have := List.find?_some hfind
        simpa using this
      have hu : u' ≠ u := by
        intro h
        apply hany
        simp only [List.any_eq_true, decide_eq_true_iff]
        exact ⟨kv, List.mem_of_find?_eq_some hfind, hkey.trans h⟩
      simp [hu]
    | none =>
      by_cases hu : u' = u
      · subst hu
        simp
      · simp [hu, Ne.symm hu]

/-- Lookup after folding the adjacency insertions over a row list: the entry
of `u` grows by the items of `u`'s rows, in row order. -/
theorem adjLookup_foldl (rows : List IRow) (d : List (Nat × List Nat)) (u : Nat) :
    adjLookup (rows.foldl (fun d r => adjInsert d r.user r.item) d) u =
      adjLookup d u ++ (rows.filter (fun r => decide (r.user = u))).map (fun r => r.item) := by
  induction rows generalizing d with
  | nil => simp
  | cons r rest ih =>
    rw [List.foldl_cons, ih, adjLookup_adjInsert]
    by_cases hu : u = r.user
    · simp [List.filter_cons, hu, Ne.symm]
    · have : ¬ r.user = u := fun h => hu h.symm
      simp [List.filter_cons, this, hu]

/-- **C2, amended claim.** The adjacency map is built from ALL rows of
`inter` — train, valid and test alike: for every user, the entry is exactly
the sequence of mapped item IDs appearing in that user's `inter` rows, with
multiplicity, in row order.  Rows held out into valid or test DO contribute
to the adjacency map. -/
theorem C2_adjacency_from_inter (inter : List IRow) (u : Nat) :
    adjLookup (adj_dict inter) u =
      (inter.filter (fun r => decide (r.user = u))).map (fun r => r.item) := by
  have h := adjLookup_foldl inter [] u
  simpa [adj_dict, adjLookup] using h

/-- **C2, counterexample.** For the concrete `inter` in which user `10` has
three rows with items `1, 2, 3` and a valid holdout draw that holds out the
first row, the adjacency entry of user `10` is `[1, 2, 3]` — the items of ALL
of the user's `inter` rows — and differs from the items of that user's train
rows `[2, 3]`, so the adjacency map is not built from the train rows only. -/
theorem C2_counterexample :
    PickValid [⟨10, 1, 0⟩, ⟨10, 2, 0⟩, ⟨10, 3, 0⟩] (fun u => if u = 10 then [0] else []) ∧
    adjLookup (adj_dict [⟨10, 1, 0⟩, ⟨10, 2, 0⟩, ⟨10, 3, 0⟩]) 10 = [1, 2, 3] ∧
    adjLookup (adj_dict [⟨10, 1, 0⟩, ⟨10, 2, 0⟩, ⟨10, 3, 0⟩]) 10 ≠
      ((rowsAt [⟨10, 1, 0⟩, ⟨10, 2, 0⟩, ⟨10, 3, 0⟩]
          (trainIdx [⟨10, 1, 0⟩, ⟨10, 2, 0⟩, ⟨10, 3, 0⟩]
            (fun u => if u = 10 then [0] else []))).filter
        (fun r => decide (r.user = 10))).map (fun r => r.item) := by
  refine ⟨?_, by decide, by decide⟩
  simp only [PickValid, numSample_eq]
  decide

/-- **C3, amended claim.** The pipeline's split artifacts are reproducible
only relative to the ambient global NumPy random state: whenever two runs see
the same per-user holdout draws (the draws of `np.random.choice`, which read
the unseeded global state), the pooled held-out list, the train positions and
the train rows coincide.  Only the valid/test subsplit is seeded
(`random_state=42`); the per-user holdout sampling itself is NOT determined by
the seed. -/
theorem C3_amended (inter : List IRow) (pick₁ pick₂ : Nat → List Nat)
    (h : ∀ u ∈ uniqueUsers inter, pick₁ u = pick₂ u) :
    heldIdx inter pick₁ = heldIdx inter pick₂ ∧
    trainIdx inter pick₁ = trainIdx inter pick₂ ∧
    rowsAt inter (trainIdx inter pick₁) = rowsAt inter (trainIdx inter pick₂) := by
  have hh : heldIdx inter pick₁ = heldIdx inter pick₂ := List.flatMap_congr h
  have ht : trainIdx inter pick₁ = trainIdx inter pick₂ := by
    simp only [trainIdx, hh]
  exact ⟨hh, ht, by rw [ht]⟩

/-- Witness for `C3_amended`: two draw functions that agree on the users of a
concrete `inter` (but differ on the irrelevant user `99`) produce the same
held-out list, train positions and train rows. -/
theorem C3_amended_witness :
    heldIdx [⟨30, 1, 0⟩, ⟨30, 2, 0⟩, ⟨30, 3, 0⟩] (fun u => if u = 30 then [0] else []) =
      heldIdx [⟨30, 1, 0⟩, ⟨30, 2, 0⟩, ⟨30, 3, 0⟩]
        (fun u => if u = 30 then [0] else [7]) ∧
    trainIdx [⟨30, 1, 0⟩, ⟨30, 2, 0⟩, ⟨30, 3, 0⟩] (fun u => if u = 30 then [0] else []) =
      trainIdx [⟨30, 1, 0⟩, ⟨30, 2, 0⟩, ⟨30, 3, 0⟩]
        (fun u => if u = 30 then [0] else [7]) ∧
    rowsAt [⟨30, 1, 0⟩, ⟨30, 2, 0⟩, ⟨30, 3, 0⟩]
        (trainIdx [⟨30, 1, 0⟩, ⟨30, 2, 0⟩, ⟨30, 3, 0⟩]
          (fun u => if u = 30 then [0] else [])) =
      rowsAt [⟨30, 1, 0⟩, ⟨30, 2, 0⟩, ⟨30, 3, 0⟩]
        (trainIdx [⟨30, 1, 0⟩, ⟨30, 2, 0⟩, ⟨30, 3, 0⟩]
          (fun u => if u = 30 then [0] else [7])) :=
  C3_amended [⟨30, 1, 0⟩, ⟨30, 2, 0⟩, ⟨30, 3, 0⟩]
    (fun u => if u = 30 then [0] else []) (fun u => if u = 30 then [0] else [7])
    (by decide)

/-- **C3, counterexample.** Fixing the raw data and the seed does not fix the
artifacts: the holdout draw comes from the ambient global NumPy state, and two
valid draws for the very same data (hold out row 0 versus row 1 of user `30`)
yield different train sets.  Hence the train artifact is not a function of
dataset and seed alone. -/
theorem C3_counterexample :
    PickValid [⟨30, 1, 0⟩, ⟨30, 2, 0⟩, ⟨30, 3, 0⟩] (fun u => if u = 30 then [0] else []) ∧
    PickValid [⟨30, 1, 0⟩, ⟨30, 2, 0⟩, ⟨30, 3, 0⟩] (fun u => if u = 30 then [1] else []) ∧
    trainIdx [⟨30, 1, 0⟩, ⟨30, 2, 0⟩, ⟨30, 3, 0⟩] (fun u => if u = 30 then [0] else []) ≠
      trainIdx [⟨30, 1, 0⟩, ⟨30, 2, 0⟩, ⟨30, 3, 0⟩] (fun u => if u = 30 then [1] else []) := by
  refine ⟨?_, ?_, by decide⟩ <;> (simp only [PickValid, numSample_eq]; decide)

/-! ## Helper lemmas about user positions, held-out and train positions -/

/-- Membership in `userPosAux`: the positions recorded from offset `k` are
exactly `k + i` for the in-range `i` whose row carries user `u`. -/
theorem mem_userPosAux (rows : List IRow) (u : Nat) (k j : Nat) :
    j ∈ userPosAux rows u k ↔
      ∃ i, i < rows.length ∧ j = k + i ∧ (rows.getD i default).user = u := by
  induction rows generalizing k with
  | nil => simp [userPosAux]
  | cons r rest ih =>
    rw [userPosAux]
    by_cases hr : r.user = u
    · rw [if_pos hr]
      simp only [List.mem_cons, ih]
      constructor
      · rintro (rfl | ⟨i, hi, rfl, hu⟩)
        · exact ⟨0, by simp, by omega, by simpa using hr⟩
        · exact ⟨i + 1, by simpa using hi, by omega, by simpa using hu⟩
      · rintro ⟨i, hi, rfl, hu⟩
        cases i with
        | zero => left; omega
        | succ i =>
          right
          exact ⟨i, by simpa using hi, by omega, by simpa using hu⟩
    · rw [if_neg hr]
      rw [ih]
      constructor
      · rintro ⟨i, hi, rfl, hu⟩
        exact ⟨i + 1, by simpa using hi, by omega, by simpa using hu⟩
      · rintro ⟨i, hi, rfl, hu⟩
        cases i with
        | zero =>
          simp only [List.getD_cons_zero] at hu
          exact absurd hu hr
        | succ i =>
          exact ⟨i, by simpa using hi, by omega, by simpa using hu⟩

/-- A position is in `userPos inter u` iff it is in range and its row carries
user `u`. -/
theorem mem_userPos (inter : List IRow) (u j : Nat) :
    j ∈ userPos inter u ↔ j < inter.length ∧ (inter.getD j default).user = u := by
  rw [userPos, mem_userPosAux]
  constructor
  · rintro ⟨i, hi, rfl, hu⟩
    refine ⟨by omega, ?_⟩
    simpa using hu
  · rintro ⟨hj, hu⟩
    exact ⟨j, hj, by omega, hu⟩

/-- `np.unique` over the users of `inter` has no duplicates. -/
theorem uniqueUsers_nodup (inter : List IRow) : (uniqueUsers inter).Nodup :=
  (List.perm_insertionSort _ _).nodup_iff.mpr (List.nodup_dedup _)

/-- A valid family of holdout draws pools into a duplicate-free held-out
list: the draws of one user are distinct, and draws of different users live
at row positions of different users. -/
theorem heldIdx_nodup (inter : List IRow) (pick : Nat → List Nat)
    (hp : PickValid inter pick) : (heldIdx inter pick).Nodup := by
  rw [heldIdx, List.nodup_flatMap]
  refine ⟨fun u hu => (hp u hu).1, ?_⟩
  refine List.Pairwise.imp_of_mem ?_ (uniqueUsers_nodup inter)
  intro a b ha hb hab x hxa hxb
  have h1 := ((mem_userPos inter a x).mp ((hp a ha).2.1 x hxa)).2
  have h2 := ((mem_userPos inter b x).mp ((hp b hb).2.1 x hxb)).2
  exact hab (h1.symm.trans h2)

/-- Held-out positions are row positions of `inter`. -/
theorem heldIdx_lt (inter : List IRow) (pick : Nat → List Nat)
    (hp : PickValid inter pick) (k : Nat) (hk : k ∈ heldIdx inter pick) :
    k < inter.length := by
  rw [heldIdx, List.mem_flatMap] at hk
  obtain ⟨u, hu, hku⟩ := hk
  exact ((mem_userPos inter u k).mp ((hp u hu).2.1 k hku)).1

/-- A position is a train position iff it is in range and not held out. -/
theorem mem_trainIdx (inter : List IRow) (pick : Nat → List Nat) (k : Nat) :
    k ∈ trainIdx inter pick ↔ k < inter.length ∧ k ∉ heldIdx inter pick := by
  rw [trainIdx, List.mem_filter, List.mem_range]
  simp only [decide_eq_true_iff]

/-- Reading every position of a list in order gives back the list. -/
theorem map_getD_range (l : List IRow) :
    (List.range l.length).map (fun k => l.getD k default) = l := by
  induction l with
  | nil => rfl
  | cons a l ih =>
    rw [List.length_cons, List.range_succ_eq_map, List.map_cons, List.map_map]
    simp only [List.getD_cons_zero, Function.comp_def, List.getD_cons_succ]
    rw [ih]

/-- Counting a user among rows fetched by positions is counting positions. -/
theorem countUser_rowsAt (inter : List IRow) (idxs : List Nat) (u : Nat) :
    countUser (rowsAt inter idxs) u =
      idxs.countP (fun k => decide ((inter.getD k default).user = u)) := by
  rw [countUser, rowsAt, List.countP_map]
  rfl

/-- `countUser` over `inter` is a count over all row positions. -/
theorem countUser_eq_countP_range (inter : List IRow) (u : Nat) :
    countUser inter u =
      (List.range inter.length).countP
        (fun k => decide ((inter.getD k default).user = u)) := by
  conv_lhs => rw [countUser, ← map_getD_range inter]
  rw [List.countP_map]
  rfl

/-- **C6.** For every valid holdout draw and every valid 50/50 subsplit of
the pooled held-out list, `train`, `valid` and `test` partition the rows of
`inter`: each row position belongs to exactly one of the three index sets,
and for every user the train, valid and test row counts add up to the user's
row count in `inter`. -/
theorem C6_split_partition (inter : List IRow) (pick : Nat → List Nat)
    (vI tI : List Nat) (hp : PickValid inter pick)
    (hs : SplitValid (heldIdx inter pick) vI tI) :
    (∀ k < inter.length,
      (k ∈ trainIdx inter pick ∧ k ∉ vI ∧ k ∉ tI) ∨
      (k ∉ trainIdx inter pick ∧ k ∈ vI ∧ k ∉ tI) ∨
      (k ∉ trainIdx inter pick ∧ k ∉ vI ∧ k ∈ tI)) ∧
    (∀ u, countUser (rowsAt inter (trainIdx inter pick)) u +
        countUser (rowsAt inter vI) u + countUser (rowsAt inter tI) u =
      countUser inter u) := by
  have hnodup := heldIdx_nodup inter pick hp
  have hvt : (vI ++ tI).Nodup := hs.nodup_iff.mpr hnodup
  have hdisj : vI.Disjoint tI := (List.nodup_append.mp hvt).2.2
  have hmem : ∀ k : Nat, k ∈ vI ∨ k ∈ tI ↔ k ∈ heldIdx inter pick := by
    intro k
    rw [← List.mem_append]
    exact hs.mem_iff
  constructor
  · intro k hk
    by_cases kh : k ∈ heldIdx inter pick
    · have hvt2 : k ∈ vI ∨ k ∈ tI := (hmem k).mpr kh
      have hnt : k ∉ trainIdx inter pick := fun h =>
        ((mem_trainIdx inter pick k).mp h).2 kh
      cases hvt2 with
      | inl hv => exact Or.inr (Or.inl ⟨hnt, hv, fun ht => hdisj hv ht⟩)
      | inr ht => exact Or.inr (Or.inr ⟨hnt, fun hv => hdisj hv ht, ht⟩)
    · refine Or.inl ⟨(mem_trainIdx inter pick k).mpr ⟨hk, kh⟩, ?_, ?_⟩
      · exact fun hv => kh ((hmem k).mp (Or.inl hv))
      · exact fun ht => kh ((hmem k).mp (Or.inr ht))
  · intro u
    rw [countUser_rowsAt, countUser_rowsAt, countUser_rowsAt,
      countUser_eq_countP_range]
    have h1 : vI.countP (fun k => decide ((inter.getD k default).user = u)) +
        tI.countP (fun k => decide ((inter.getD k default).user = u)) =
        (heldIdx inter pick).countP
          (fun k => decide ((inter.getD k default).user = u)) := by
      rw [← List.countP_append]
      exact hs.countP_eq _
    have hperm : (List.range inter.length).filter
        (fun k => decide (k ∈ heldIdx inter pick)) ~ heldIdx inter pick := by
      refine (List.perm_ext_iff_of_nodup ((List.nodup_range _).filter _) hnodup).mpr ?_
      intro a
      rw [List.mem_filter, List.mem_range, decide_eq_true_iff]
      exact ⟨fun h => h.2, fun h => ⟨heldIdx_lt inter pick hp a h, h⟩⟩
    have htr : trainIdx inter pick = (List.range inter.length).filter
        (fun k => !decide (k ∈ heldIdx inter pick)) := by
      rw [trainIdx]
      congr 1
      funext k
      exact decide_not
    have h2 : (List.range inter.length).countP
        (fun k => decide ((inter.getD k default).user = u)) =
        (heldIdx inter pick).countP
          (fun k => decide ((inter.getD k default).user = u)) +
        (trainIdx inter pick).countP
          (fun k => decide ((inter.getD k default).user = u)) := by
      have hsplit := (List.filter_append_perm
        (fun k => decide (k ∈ heldIdx inter pick)) (List.range inter.length)).countP_eq
        (fun k => decide ((inter.getD k default).user = u))
      rw [List.countP_append, hperm.countP_eq] at hsplit
      rw [htr, ← hsplit]
    omega

/-- Witness for `C6_split_partition`: user `20` with five rows, holding out
rows `1` and `4`, valid `[1]`, test `[4]`; the per-user counts add up. -/
theorem C6_split_partition_witness :
    countUser (rowsAt [⟨20, 1, 0⟩, ⟨20, 2, 0⟩, ⟨20, 3, 0⟩, ⟨20, 4, 0⟩, ⟨20, 5, 1⟩]
        (trainIdx [⟨20, 1, 0⟩, ⟨20, 2, 0⟩, ⟨20, 3, 0⟩, ⟨20, 4, 0⟩, ⟨20, 5, 1⟩]
          (fun u => if u = 20 then [1, 4] else []))) 20 +
      countUser (rowsAt [⟨20, 1, 0⟩, ⟨20, 2, 0⟩, ⟨20, 3, 0⟩, ⟨20, 4, 0⟩, ⟨20, 5, 1⟩] [1]) 20 +
      countUser (rowsAt [⟨20, 1, 0⟩, ⟨20, 2, 0⟩, ⟨20, 3, 0⟩, ⟨20, 4, 0⟩, ⟨20, 5, 1⟩] [4]) 20 =
    countUser [⟨20, 1, 0⟩, ⟨20, 2, 0⟩, ⟨20, 3, 0⟩, ⟨20, 4, 0⟩, ⟨20, 5, 1⟩] 20 :=
  (C6_split_partition [⟨20, 1, 0⟩, ⟨20, 2, 0⟩, ⟨20, 3, 0⟩, ⟨20, 4, 0⟩, ⟨20, 5, 1⟩]
      (fun u => if u = 20 then [1, 4] else []) [1] [4]
      (by simp only [PickValid, numSample_eq]; decide)
      (by simp only [SplitValid]; decide)).2 20

/-- **C10.** For every user `u` of `inter`, a valid holdout draw selects
exactly `int(n_u * 0.4) = floor(0.4 * n_u)` of `u`'s row positions, distinct
and without replacement; in particular a user with exactly `2` rows
contributes `floor(0.8) = 0` held-out rows, and both of that user's rows are
train positions. -/
theorem C10_holdout_size (inter : List IRow) (pick : Nat → List Nat)
    (hp : PickValid inter pick) :
    ∀ u ∈ uniqueUsers inter,
      (pick u).length = ⌊((userPos inter u).length : ℚ) * (4 / 10)⌋₊ ∧
      ((userPos inter u).length = 2 →
        pick u = [] ∧ ∀ k ∈ userPos inter u, k ∈ trainIdx inter pick) := by
  intro u hu
  obtain ⟨hnd, hsub, hlen⟩ := hp u hu
  refine ⟨hlen, ?_⟩
  intro h2
  have hnil : pick u = [] := by
    have : (pick u).length = 0 := by
      rw [hlen, h2, numSample_eq]
    exact List.eq_nil_of_length_eq_zero this
  refine ⟨hnil, ?_⟩
  intro k hk
  rw [mem_trainIdx]
  refine ⟨((mem_userPos inter u k).mp hk).1, ?_⟩
  intro hheld
  rw [heldIdx, List.mem_flatMap] at hheld
  obtain ⟨u', hu', hku'⟩ := hheld
  have e1 : (inter.getD k default).user = u := ((mem_userPos inter u k).mp hk).2
  have e2 : (inter.getD k default).user = u' :=
    ((mem_userPos inter u' k).mp ((hp u' hu').2.1 k hku')).2
  have : u' = u := e2.symm.trans e1
  subst this
  rw [hnil] at hku'
  exact absurd hku' (List.not_mem_nil k)

/-- Witness for `C10_holdout_size`: a user with exactly two rows gets an
empty draw and both rows are train positions. -/
theorem C10_holdout_size_witness :
    ([] : List Nat) = [] ∧
    ∀ k ∈ userPos [⟨40, 1, 0⟩, ⟨40, 2, 1⟩] 40,
      k ∈ trainIdx [⟨40, 1, 0⟩, ⟨40, 2, 1⟩] (fun _ => []) :=
  (C10_holdout_size [⟨40, 1, 0⟩, ⟨40, 2, 1⟩] (fun _ => [])
      (by simp only [PickValid, numSample_eq]; decide) 40 (by decide)).2 (by decide)

/-! ## Helper lemmas about the index mapper -/

/-- `np.unique` output has no duplicates (integer version). -/
theorem sortedDedupN_nodup (l : List Nat) : (sortedDedupN l).Nodup :=
  (List.perm_insertionSort _ _).nodup_iff.mpr (List.nodup_dedup l)

/-- `np.unique` output has no duplicates (string version). -/
theorem sortedDedupS_nodup (l : List Str) : (sortedDedupS l).Nodup :=
  (List.perm_insertionSort _ _).nodup_iff.mpr (List.nodup_dedup l)

/-- `np.unique` keeps exactly the values of its input (integer version). -/
theorem mem_sortedDedupN (l : List Nat) (a : Nat) : a ∈ sortedDedupN l ↔ a ∈ l := by
  rw [sortedDedupN, (List.perm_insertionSort _ _).mem_iff, List.mem_dedup]

/-- `np.unique` keeps exactly the values of its input (string version). -/
theorem mem_sortedDedupS (l : List Str) (a : Str) : a ∈ sortedDedupS l ↔ a ∈ l := by
  rw [sortedDedupS, (List.perm_insertionSort _ _).mem_iff, List.mem_dedup]

/-- `indexOf` is injective on the members of any list. -/
theorem indexOf_injOn {α : Type} [DecidableEq α] {l : List α} {a b : α}
    (ha : a ∈ l) (hb : b ∈ l) (h : l.indexOf a = l.indexOf b) : a = b := by
  have h1 := List.indexOf_get (List.indexOf_lt_length.mpr ha)
  have h2 := List.indexOf_get (List.indexOf_lt_length.mpr hb)
  rw [← h1, ← h2]
  congr 1
  exact Fin.ext h

/-- On a duplicate-free list, every position is the `indexOf` of a member. -/
theorem exists_indexOf_eq {α : Type} [DecidableEq α] {l : List α} (hn : l.Nodup)
    {j : Nat} (hj : j < l.length) : ∃ x ∈ l, l.indexOf x = j := by
  refine ⟨l.get ⟨j, hj⟩, l.get_mem j hj, ?_⟩
  have hlt : l.indexOf (l.get ⟨j, hj⟩) < l.length :=
    List.indexOf_lt_length.mpr (l.get_mem j hj)
  have hg : l.get ⟨l.indexOf (l.get ⟨j, hj⟩), hlt⟩ = l.get ⟨j, hj⟩ :=
    List.indexOf_get hlt
  have hfin := hn.get_inj_iff.mp hg
  exact congrArg Fin.val hfin

/-- **C7.** The index mapper enumerates the sorted unique item IDs ascending
onto exactly `[0, num_items)` and the sorted unique user IDs ascending onto
exactly `[num_items, num_items + num_users)`: each mapping is injective on its
domain and surjective onto its dense range, the two ranges are disjoint, and
for the example item set `{5, 6, 8}` with user set `{A, B}` the result is
`5 ↦ 0, 6 ↦ 1, 8 ↦ 2` and `A ↦ 3, B ↦ 4`. -/
theorem C7_index_mapper (items : List Nat) (users : List Str) :
    ((sortedDedupN items).Nodup ∧ List.Sorted (· ≤ ·) (sortedDedupN items)) ∧
    (∀ x ∈ sortedDedupN items,
      mapping_i (sortedDedupN items) x < (sortedDedupN items).length) ∧
    (∀ j < (sortedDedupN items).length,
      ∃ x ∈ sortedDedupN items, mapping_i (sortedDedupN items) x = j) ∧
    (∀ x ∈ sortedDedupN items, ∀ y ∈ sortedDedupN items,
      mapping_i (sortedDedupN items) x = mapping_i (sortedDedupN items) y → x = y) ∧
    (∀ y ∈ sortedDedupS users,
      (sortedDedupN items).length ≤
          mapping_u (sortedDedupN items).length (sortedDedupS users) y ∧
        mapping_u (sortedDedupN items).length (sortedDedupS users) y <
          (sortedDedupN items).length + (sortedDedupS users).length) ∧
    (∀ j, (sortedDedupN items).length ≤ j →
      j < (sortedDedupN items).length + (sortedDedupS users).length →
      ∃ y ∈ sortedDedupS users,
        mapping_u (sortedDedupN items).length (sortedDedupS users) y = j) ∧
    (∀ y ∈ sortedDedupS users, ∀ z ∈ sortedDedupS users,
      mapping_u (sortedDedupN items).length (sortedDedupS users) y =
        mapping_u (sortedDedupN items).length (sortedDedupS users) z → y = z) ∧
    (∀ x ∈ sortedDedupN items, ∀ y ∈ sortedDedupS users,
      mapping_i (sortedDedupN items) x ≠
        mapping_u (sortedDedupN items).length (sortedDedupS users) y) ∧
    (mapping_i (sortedDedupN [5, 6, 8]) 5 = 0 ∧
      mapping_i (sortedDedupN [5, 6, 8]) 6 = 1 ∧
      mapping_i (sortedDedupN [5, 6, 8]) 8 = 2 ∧
      mapping_u 3 (sortedDedupS [['A'], ['B']]) ['A'] = 3 ∧
      mapping_u 3 (sortedDedupS [['A'], ['B']]) ['B'] = 4) := by
  refine ⟨⟨sortedDedupN_nodup items, List.sorted_insertionSort _ _⟩,
    ?_, ?_, ?_, ?_, ?_, ?_, ?_, by decide⟩
  · intro x hx
    exact List.indexOf_lt_length.mpr hx
  · intro j hj
    exact exists_indexOf_eq (sortedDedupN_nodup items) hj
  · intro x hx y hy h
    exact indexOf_injOn hx hy h
  · intro y hy
    rw [mapping_u]
    exact ⟨Nat.le_add_right _ _,
      Nat.add_lt_add_left (List.indexOf_lt_length.mpr hy) _⟩
  · intro j hj1 hj2
    obtain ⟨y, hy, hidx⟩ := exists_indexOf_eq (sortedDedupS_nodup users)
      (show j - (sortedDedupN items).length < (sortedDedupS users).length by omega)
    refine ⟨y, hy, ?_⟩
    rw [mapping_u, hidx]
    omega
  · intro y hy z hz h
    rw [mapping_u, mapping_u] at h
    exact indexOf_injOn hy hz (Nat.add_left_cancel h)
  · intro x hx y hy
    have h1 : mapping_i (sortedDedupN items) x < (sortedDedupN items).length :=
      List.indexOf_lt_length.mpr hx
    have h2 : (sortedDedupN items).length ≤
        mapping_u (sortedDedupN items).length (sortedDedupS users) y :=
      Nat.le_add_right _ _
    omega

/-- Witness for `C7_index_mapper`: position `0` of the example item range is
hit by a sorted-unique item. -/
theorem C7_index_mapper_witness :
    ∃ x ∈ sortedDedupN [5, 6, 8], mapping_i (sortedDedupN [5, 6, 8]) x = 0 :=
  (C7_index_mapper [5, 6, 8] [['A'], ['B']]).2.2.1 0 (by decide)

/-! ## Helper lemmas about the threshold filter -/

/-- Every row surviving the threshold filter has its item in all four
item-feature index sets, its user in the user-feature set, and its user's
feature-filtered row count at least `cut`. -/
theorem thresholdFilter_mem (img txt prc txn : List Nat) (uf : List Str)
    (cut : Nat) (rows : List RawRow) (r : RawRow)
    (hr : r ∈ thresholdFilter img txt prc txn uf cut rows) :
    (r.tokenId ∈ img ∧ r.tokenId ∈ txt ∧ r.tokenId ∈ prc ∧ r.tokenId ∈ txn ∧
      r.buyer ∈ uf) ∧
    cut ≤ countBuyer (featureFilter img txt prc txn uf rows) r.buyer := by
  obtain ⟨hmem, hcut⟩ := List.mem_filter.mp hr
  obtain ⟨-, hfeat⟩ := List.mem_filter.mp hmem
  simp only [Bool.and_eq_true, decide_eq_true_iff] at hfeat hcut
  exact ⟨⟨hfeat.1.1.1.1, hfeat.1.1.1.2, hfeat.1.1.2, hfeat.1.2, hfeat.2⟩, hcut⟩

/-- **C8.** Every interaction retained by the threshold filter has an item
present in all four item-feature tables and a user present in the
user-feature table, and the per-user count compared against `USER_CUT` is the
count over the feature-filtered rows, so it reflects only feature-eligible
interactions.  Moreover (second conjunct, concrete input) a user whose raw
count met `USER_CUT` may still be dropped: with `cut = 2`, a user with two
raw rows of which one row's item lacks features loses both rows. -/
theorem C8_threshold_filter (img txt prc txn : List Nat) (uf : List Str)
    (cut : Nat) (rows : List RawRow) :
    (∀ r ∈ thresholdFilter img txt prc txn uf cut rows,
      (r.tokenId ∈ img ∧ r.tokenId ∈ txt ∧ r.tokenId ∈ prc ∧ r.tokenId ∈ txn ∧
        r.buyer ∈ uf) ∧
      cut ≤ countBuyer (featureFilter img txt prc txn uf rows) r.buyer) ∧
    (countBuyer [⟨['A'], 1, []⟩, ⟨['A'], 2, []⟩] ['A'] = 2 ∧
      thresholdFilter [1] [1] [1] [1] [['A']] 2 [⟨['A'], 1, []⟩, ⟨['A'], 2, []⟩] = []) :=
  ⟨fun r hr => thresholdFilter_mem img txt prc txn uf cut rows r hr,
    by decide, by decide⟩

/-- Witness for `C8_threshold_filter`: the concrete surviving row has its
item and user in all feature tables and a sufficient feature-filtered
count. -/
theorem C8_threshold_filter_witness :
    (((⟨['A'], 1, "1 ETH ($10)".toList⟩ : RawRow).tokenId ∈ [1] ∧
      (⟨['A'], 1, "1 ETH ($10)".toList⟩ : RawRow).tokenId ∈ [1] ∧
      (⟨['A'], 1, "1 ETH ($10)".toList⟩ : RawRow).tokenId ∈ [1] ∧
      (⟨['A'], 1, "1 ETH ($10)".toList⟩ : RawRow).tokenId ∈ [1] ∧
      (⟨['A'], 1, "1 ETH ($10)".toList⟩ : RawRow).buyer ∈ [['A']]) ∧
    1 ≤ countBuyer (featureFilter [1] [1] [1] [1] [['A']]
      [⟨['A'], 1, "1 ETH ($10)".toList⟩])
      (⟨['A'], 1, "1 ETH ($10)".toList⟩ : RawRow).buyer) :=
  (C8_threshold_filter [1] [1] [1] [1] [['A']] 1
      [⟨['A'], 1, "1 ETH ($10)".toList⟩]).1
    ⟨['A'], 1, "1 ETH ($10)".toList⟩ (by decide)

/-! ## Helper lemmas about the feature aligner -/

/-- Sorted keys after restriction and reindexing: when the table's keys are
duplicate-free and contain every filtered item, the surviving key multiset is
exactly `itemU`, so the sorted reindexed keys are the sorted image of
`itemU` under `mapping_i`. -/
theorem sortedKeys_reindexT {β : Type} (itemU : List Nat) (t : List (Nat × β))
    (hU : itemU.Nodup) (hT : (keysOf t).Nodup) (hsub : ∀ x ∈ itemU, x ∈ keysOf t) :
    sortedKeys (reindexT itemU t) =
      insertionSort (· ≤ ·) (itemU.map (mapping_i itemU)) := by
  have hk : keysOf (reindexT itemU t) =
      ((keysOf t).filter (fun x => decide (x ∈ itemU))).map (mapping_i itemU) := by
    simp only [reindexT, restrictT, keysOf, List.map_map, List.filter_map,
      Function.comp_def]
  have hperm : (keysOf t).filter (fun x => decide (x ∈ itemU)) ~ itemU := by
    refine (List.perm_ext_iff_of_nodup (hT.filter _) hU).mpr ?_
    intro a
    rw [List.mem_filter, decide_eq_true_iff]
    exact ⟨fun h => h.2, fun h => ⟨hsub a h, h⟩⟩
  rw [sortedKeys, hk]
  exact List.eq_of_perm_of_sorted
    ((List.perm_insertionSort _ _).trans ((hperm.map _).trans
      (List.perm_insertionSort _ _).symm))
    (List.sorted_insertionSort _ _) (List.sorted_insertionSort _ _)

/-- `np.unique` commutes with an injective map up to sorting. -/
theorem sortedDedupN_map_inj (l : List Nat) (f : Nat → Nat)
    (hinj : ∀ x ∈ l, ∀ y ∈ l, f x = f y → x = y) :
    sortedDedupN (l.map f) = insertionSort (· ≤ ·) ((sortedDedupN l).map f) := by
  have h1 : (l.map f).dedup ~ (sortedDedupN l).map f := by
    refine (List.perm_ext_iff_of_nodup (List.nodup_dedup _) ?_).mpr ?_
    · refine (sortedDedupN_nodup l).map_on ?_
      intro x hx y hy h
      exact hinj x ((mem_sortedDedupN l x).mp hx) y ((mem_sortedDedupN l y).mp hy) h
    · intro a
      rw [List.mem_dedup, List.mem_map, List.mem_map]
      constructor
      · rintro ⟨x, hx, rfl⟩
        exact ⟨x, (mem_sortedDedupN l x).mpr hx, rfl⟩
      · rintro ⟨x, hx, rfl⟩
        exact ⟨x, (mem_sortedDedupN l x).mp hx, rfl⟩
  rw [sortedDedupN]
  exact List.eq_of_perm_of_sorted
    ((List.perm_insertionSort _ _).trans (h1.trans
      (List.perm_insertionSort _ _).symm))
    (List.sorted_insertionSort _ _) (List.sorted_insertionSort _ _)

/-- Parsing preserves the token IDs of the rows. -/
theorem parsedRows_tokenIds (rows : List RawRow) :
    (parsedRows rows).map (fun r => r.tokenId) = rows.map (fun r => r.tokenId) := by
  rw [parsedRows, List.map_map]
  rfl

/-- The item column of `inter` is the token-ID column of the surviving rows
mapped through `mapping_i`. -/
theorem interOf_items (rows : List RawRow) :
    (interOf rows).map (fun r => r.item) =
      ((parsedRows (dollarFilter rows)).map (fun r => r.tokenId)).map
        (mapping_i (sortedDedupN
          ((parsedRows (dollarFilter rows)).map (fun r => r.tokenId)))) := by
  have hl : (parsedRows (dollarFilter rows)).length ≤
      (mkLabels (parsedRows (dollarFilter rows))).length :=
    le_of_eq (mkLabels_length _).symm
  simp only [interOf, List.map_map]
  generalize sortedDedupN ((parsedRows (dollarFilter rows)).map
    (fun r => r.tokenId)) = U
  generalize sortedDedupS ((parsedRows (dollarFilter rows)).map
    (fun r => r.buyer)) = S
  conv_rhs => rw [← List.map_fst_zip (parsedRows (dollarFilter rows))
    (mkLabels (parsedRows (dollarFilter rows))) hl]
  rw [List.map_map]
  rfl

/-- **C9.** On pipeline-produced state — `itemU` the sorted unique token IDs
of the rows surviving the threshold and currency filters, and duplicate-free
feature-table keys — the feature aligner's three assertions hold: restriction
and reindexing give the four tables pairwise identical sorted key lists, equal
to the sorted unique mapped item IDs of `inter`, so `alignItems` returns
`some` (the assertions never fire); and on any key-set mismatch it returns
`none`, halting the run instead of continuing with implicit NaNs. -/
theorem C9_feature_alignment {β : Type} (img txt prc txn : List (Nat × β))
    (uf : List Str) (cut : Nat) (raw : List RawRow)
    (goodRows : List RawRow) (itemU : List Nat)
    (h1 : (keysOf img).Nodup) (h2 : (keysOf txt).Nodup)
    (h3 : (keysOf prc).Nodup) (h4 : (keysOf txn).Nodup)
    (hrows : goodRows = dollarFilter (thresholdFilter (keysOf img) (keysOf txt)
      (keysOf prc) (keysOf txn) uf cut raw))
    (hitem : itemU = sortedDedupN (goodRows.map (fun r => r.tokenId))) :
    (alignItems itemU img txt prc txn).isSome = true ∧
    (∀ a b c d, alignItems itemU img txt prc txn = some (a, b, c, d) →
      sortedKeys a = sortedKeys b ∧ sortedKeys a = sortedKeys c ∧
      sortedKeys a = sortedKeys d ∧
      sortedKeys a = sortedDedupN ((interOf (thresholdFilter (keysOf img)
        (keysOf txt) (keysOf prc) (keysOf txn) uf cut raw)).map
          (fun r => r.item))) ∧
    (∀ (i2 t2 p2 x2 : List (Nat × β)),
      sortedKeys (reindexT itemU i2) ≠ sortedKeys (reindexT itemU t2) →
      alignItems itemU i2 t2 p2 x2 = none) := by
  have hUnodup : itemU.Nodup := hitem ▸ sortedDedupN_nodup _
  have hsub : ∀ T : List Nat,
      (∀ rr ∈ thresholdFilter (keysOf img) (keysOf txt) (keysOf prc)
        (keysOf txn) uf cut raw, rr.tokenId ∈ T) →
      ∀ x ∈ itemU, x ∈ T := by
    intro T hT x hx
    rw [hitem, mem_sortedDedupN, List.mem_map] at hx
    obtain ⟨rr, hrr, rfl⟩ := hx
    rw [hrows] at hrr
    exact hT rr (List.mem_filter.mp hrr).1
  have hsubI : ∀ x ∈ itemU, x ∈ keysOf img := hsub _ (fun rr hrr =>
    ((thresholdFilter_mem _ _ _ _ _ _ _ rr hrr).1).1)
  have hsubT : ∀ x ∈ itemU, x ∈ keysOf txt := hsub _ (fun rr hrr =>
    ((thresholdFilter_mem _ _ _ _ _ _ _ rr hrr).1).2.1)
  have hsubP : ∀ x ∈ itemU, x ∈ keysOf prc := hsub _ (fun rr hrr =>
    ((thresholdFilter_mem _ _ _ _ _ _ _ rr hrr).1).2.2.1)
  have hsubX : ∀ x ∈ itemU, x ∈ keysOf txn := hsub _ (fun rr hrr =>
    ((thresholdFilter_mem _ _ _ _ _ _ _ rr hrr).1).2.2.2.1)
  have eI := sortedKeys_reindexT itemU img hUnodup h1 hsubI
  have eT := sortedKeys_reindexT itemU txt hUnodup h2 hsubT
  have eP := sortedKeys_reindexT itemU prc hUnodup h3 hsubP
  have eX := sortedKeys_reindexT itemU txn hUnodup h4 hsubX
  have hcond : sortedKeys (reindexT itemU img) = sortedKeys (reindexT itemU txt) ∧
      sortedKeys (reindexT itemU img) = sortedKeys (reindexT itemU prc) ∧
      sortedKeys (reindexT itemU img) = sortedKeys (reindexT itemU txn) :=
    ⟨eI.trans eT.symm, eI.trans eP.symm, eI.trans eX.symm⟩
  refine ⟨?_, ?_, ?_⟩
  · simp only [alignItems]
    rw [if_pos hcond]
    rfl
  · intro a b c d heq
    simp only [alignItems] at heq
    rw [if_pos hcond] at heq
    have hpair := Option.some.inj heq
    simp only [Prod.mk.injEq] at hpair
    obtain ⟨ha, hb, hc, hd⟩ := hpair
    subst ha
    subst hb
    subst hc
    subst hd
    refine ⟨hcond.1, hcond.2.1, hcond.2.2, ?_⟩
    have hpr : (parsedRows (dollarFilter (thresholdFilter (keysOf img) (keysOf txt)
        (keysOf prc) (keysOf txn) uf cut raw))).map (fun r => r.tokenId) =
        goodRows.map (fun r => r.tokenId) := by
      rw [parsedRows_tokenIds, hrows]
    have hitems : (interOf (thresholdFilter (keysOf img) (keysOf txt) (keysOf prc)
        (keysOf txn) uf cut raw)).map (fun r => r.item) =
        (goodRows.map (fun r => r.tokenId)).map (mapping_i itemU) := by
      rw [interOf_items, hpr, ← hitem]
    rw [hitems]
    have hinj : ∀ x ∈ goodRows.map (fun r => r.tokenId),
        ∀ y ∈ goodRows.map (fun r => r.tokenId),
        mapping_i itemU x = mapping_i itemU y → x = y := by
      intro x hx y hy h
      have hx2 : x ∈ itemU := by
        rw [hitem, mem_sortedDedupN]
        exact hx
      have hy2 : y ∈ itemU := by
        rw [hitem, mem_sortedDedupN]
        exact hy
      exact indexOf_injOn hx2 hy2 h
    rw [sortedDedupN_map_inj _ _ hinj, ← hitem]
    exact eI
  · intro i2 t2 p2 x2 hne
    simp only [alignItems]
    rw [if_neg]
    intro hcond2
    exact hne hcond2.1

/-- Witness for `C9_feature_alignment`: on a one-row pipeline state with all
four tables keyed by token `1`, the assertions pass. -/
theorem C9_feature_alignment_witness :
    (alignItems [1] [(1, 7)] [(1, 7)] [(1, 7)] [(1, 7)]).isSome = true :=
  (C9_feature_alignment [(1, 7)] [(1, 7)] [(1, 7)] [(1, 7)] [['A']] 1
      [⟨['A'], 1, "1 ETH ($10)".toList⟩] [⟨['A'], 1, "1 ETH ($10)".toList⟩] [1]
      (by decide) (by decide) (by decide) (by decide) (by decide) (by decide)).1
